import Mathlib

/-!
Shallow embedding of the noisebench noise-expression core.

Conventions of the embedding:
- Rust `f32` result scalars and `f64` coordinate scalars are modelled as
  exact rationals (`ℚ`); IEEE rounding is not modelled here (a separate,
  explicitly scoped binary32 rounding model `roundF32` appears further
  below for the one claim whose statement is about bit-level `f32`
  arithmetic). The `f32 → f64` widening cast is exact and becomes the
  identity.
- A Rust panic is modelled as `Option.none`; ordinary results are `some`.
  The only panicking operation reachable from `Noise::eval` is
  `f32::clamp`, which asserts `min <= max`.
- The external seeded simplex noise primitives (`opensimplex2`) and the
  transcendental `f32::powf` are not rational functions; they enter the
  model as uninterpreted parameters collected in `Prims`.
- `f32` division by zero yields an IEEE special value, not a panic; in the
  `ℚ` model `x / 0 = 0`. No claim below depends on the value produced by
  the `Div`, `Rem`, `RemEuclid` or `Pow` arms, only on their totality.
-/

/-- Uninterpreted primitive scalar functions used by leaf/`Pow` arms of the
evaluator: the two `opensimplex2` samplers (seed, coordinate) and
`f32::powf`. -/
structure Prims where
  simplex : ℤ → ℚ × ℚ → ℚ
  simplexFast : ℤ → ℚ × ℚ → ℚ
  powf : ℚ → ℚ → ℚ

/-- A concrete instantiation of `Prims` (all primitives zero), used only to
evaluate witnesses and counterexamples on trees that do not contain
`Simplex`, `SimplexFast` or `Pow` nodes. -/
def trivPrims : Prims :=
  ⟨fun _ _ => 0, fun _ _ => 0, fun _ _ => 0⟩

/-- The expression tree `Noise` of `src/lua.rs` (lines 44-79), one
constructor per Rust variant. `Func` holds the callback leaf's function
`(x, y) → scalar`; coordinates are pairs (`DVec2`). -/
inductive Noise where
  | Const (v : ℚ)
  | Func (f : ℚ × ℚ → ℚ)
  | Simplex (seed : ℤ)
  | SimplexFast (seed : ℤ)
  | Octaves (func : Noise) (octaves : ℕ) (ampScale : ℚ) (freqScale : ℚ)
  | Add (l r : Noise)
  | Sub (l r : Noise)
  | Mul (l r : Noise)
  | Div (l r : Noise)
  | Pow (l r : Noise)
  | Rem (l r : Noise)
  | RemEuclid (l r : Noise)
  | SignedPow (l r : Noise)
  | Floor (v : Noise)
  | Ceil (v : Noise)
  | Abs (v : Noise)
  | Min (l r : Noise)
  | Max (l r : Noise)
  | Clamp (func : Noise) (mn mx : ℚ)
  | ToUnsignedUnit (v : Noise)
  | ToSignedUnit (v : Noise)
  | CoordTranslate (func : Noise) (translation : ℚ × ℚ)
  | CoordScale (func : Noise) (scale : ℚ × ℚ)

/-- Evaluate both children, then combine; a panic (`none`) in either child
propagates (the Rust code evaluates left then right). -/
def lift2 (op : ℚ → ℚ → ℚ) (a b : Option ℚ) : Option ℚ :=
  a.bind fun x => b.map fun y => op x y

/-- Truncation toward zero, as Rust float-to-integer-part truncation. -/
def truncQ (q : ℚ) : ℚ :=
  if q < 0 then (⌈q⌉ : ℚ) else (⌊q⌋ : ℚ)

/-- Rust `%` on floats: truncating remainder `x - y * trunc(x / y)`.
(In the `ℚ` model `x / 0 = 0`, so `fRem x 0 = x` rather than NaN; no claim
uses this value.) -/
def fRem (x y : ℚ) : ℚ :=
  x - y * truncQ (x / y)

/-- Rust `f32::rem_euclid`: the truncating remainder, shifted into
`[0, |y|)` when negative. -/
def fRemEuclid (x y : ℚ) : ℚ :=
  let r := fRem x y
  if r < 0 then r + |y| else r

/-- Rust `f32::copysign x y`: magnitude of `x`, sign of `y` (`ℚ` has no
negative zero or NaN, so the sign of `y` is just `y < 0`). -/
def copysign (x y : ℚ) : ℚ :=
  if y < 0 then -|x| else |x|

/-- The value computed by Rust `f32::clamp` once its `assert!(min <= max)`
has passed: `if self < min { min } else if self > max { max } else { self }`. -/
def rustClamp (x mn mx : ℚ) : ℚ :=
  if x < mn then mn else if mx < x then mx else x

/-- The `Octaves` loop body of `Noise::eval` (`src/lua.rs` lines 94-104):
state `(res, amp, freq)`, one iteration per remaining octave, in source
order `res += amp * func.eval(pos * freq); amp *= ampScale; freq *= freqScale`.
The child evaluator is passed as a function; a child panic propagates. -/
def octRun (ev : ℚ × ℚ → Option ℚ) (ampScale freqScale : ℚ) (pos : ℚ × ℚ) :
    ℕ → ℚ → ℚ → ℚ → Option ℚ
  | 0, res, _, _ => some res
  | n + 1, res, amp, freq =>
    (ev (pos.1 * freq, pos.2 * freq)).bind fun v =>
      octRun ev ampScale freqScale pos n (res + amp * v) (amp * ampScale) (freq * freqScale)

/-- `Noise::eval` (`src/lua.rs` lines 82-131), arm by arm. `none` models a
panic; the only source of panics is the `Clamp` arm, whose Rust
`f32::clamp` asserts `min <= max`. -/
def Noise.eval (P : Prims) : Noise → ℚ × ℚ → Option ℚ
  | .Const v, _ => some v
  | .Func f, pos => some (f pos)
  | .Simplex seed, pos => some (P.simplex seed pos)
  | .SimplexFast seed, pos => some (P.simplexFast seed pos)
  | .Octaves f n ampScale freqScale, pos =>
    octRun (fun q => Noise.eval P f q) ampScale freqScale pos n 0 1 1
  | .Add l r, pos => lift2 (· + ·) (Noise.eval P l pos) (Noise.eval P r pos)
  | .Sub l r, pos => lift2 (· - ·) (Noise.eval P l pos) (Noise.eval P r pos)
  | .Mul l r, pos => lift2 (· * ·) (Noise.eval P l pos) (Noise.eval P r pos)
  | .Div l r, pos => lift2 (· / ·) (Noise.eval P l pos) (Noise.eval P r pos)
  | .Pow l r, pos => lift2 P.powf (Noise.eval P l pos) (Noise.eval P r pos)
  | .Rem l r, pos => lift2 fRem (Noise.eval P l pos) (Noise.eval P r pos)
  | .RemEuclid l r, pos => lift2 fRemEuclid (Noise.eval P l pos) (Noise.eval P r pos)
  | .SignedPow l r, pos =>
    lift2 (fun a b => copysign (P.powf a b) a) (Noise.eval P l pos) (Noise.eval P r pos)
  | .Floor v, pos => (Noise.eval P v pos).map fun x => (⌊x⌋ : ℚ)
  | .Ceil v, pos => (Noise.eval P v pos).map fun x => (⌈x⌉ : ℚ)
  | .Abs v, pos => (Noise.eval P v pos).map fun x => |x|
  | .Min l r, pos => lift2 min (Noise.eval P l pos) (Noise.eval P r pos)
  | .Max l r, pos => lift2 max (Noise.eval P l pos) (Noise.eval P r pos)
  | .Clamp f mn mx, pos =>
    if mn ≤ mx then (Noise.eval P f pos).map fun x => rustClamp x mn mx else none
  | .ToUnsignedUnit v, pos => (Noise.eval P v pos).map fun x => (x + 1) / 2
  | .ToSignedUnit v, pos => (Noise.eval P v pos).map fun x => x * 2 - 1
  | .CoordTranslate f t, pos => Noise.eval P f (pos.1 + t.1, pos.2 + t.2)
  | .CoordScale f s, pos => Noise.eval P f (pos.1 * s.1, pos.2 * s.2)

/-- `impl Clone for Noise` (`src/lua.rs` lines 134-179), arm by arm. The
one non-structural arm is `Func`, where the Rust code duplicates the boxed
function object with `dyn_clone::clone_box`; that duplication is modelled
by the explicit parameter `cf` applied to the held function. -/
def Noise.clone (cf : (ℚ × ℚ → ℚ) → ℚ × ℚ → ℚ) : Noise → Noise
  | .Const v => .Const v
  | .Func f => .Func (cf f)
  | .Simplex s => .Simplex s
  | .SimplexFast s => .SimplexFast s
  | .Octaves f n a s => .Octaves (Noise.clone cf f) n a s
  | .Add l r => .Add (Noise.clone cf l) (Noise.clone cf r)
  | .Sub l r => .Sub (Noise.clone cf l) (Noise.clone cf r)
  | .Mul l r => .Mul (Noise.clone cf l) (Noise.clone cf r)
  | .Div l r => .Div (Noise.clone cf l) (Noise.clone cf r)
  | .Pow l r => .Pow (Noise.clone cf l) (Noise.clone cf r)
  | .Rem l r => .Rem (Noise.clone cf l) (Noise.clone cf r)
  | .RemEuclid l r => .RemEuclid (Noise.clone cf l) (Noise.clone cf r)
  | .SignedPow l r => .SignedPow (Noise.clone cf l) (Noise.clone cf r)
  | .Floor v => .Floor (Noise.clone cf v)
  | .Ceil v => .Ceil (Noise.clone cf v)
  | .Abs v => .Abs (Noise.clone cf v)
  | .Min l r => .Min (Noise.clone cf l) (Noise.clone cf r)
  | .Max l r => .Max (Noise.clone cf l) (Noise.clone cf r)
  | .Clamp f mn mx => .Clamp (Noise.clone cf f) mn mx
  | .ToUnsignedUnit v => .ToUnsignedUnit (Noise.clone cf v)
  | .ToSignedUnit v => .ToSignedUnit (Noise.clone cf v)
  | .CoordTranslate f t => .CoordTranslate (Noise.clone cf f) t
  | .CoordScale f s => .CoordScale (Noise.clone cf f) s

/-- Every `Clamp` node of the tree satisfies `min ≤ max`, i.e. no
`f32::clamp` assertion can fire during evaluation. -/
def Noise.clampOK : Noise → Bool
  | .Const _ => true
  | .Func _ => true
  | .Simplex _ => true
  | .SimplexFast _ => true
  | .Octaves f _ _ _ => Noise.clampOK f
  | .Add l r => Noise.clampOK l && Noise.clampOK r
  | .Sub l r => Noise.clampOK l && Noise.clampOK r
  | .Mul l r => Noise.clampOK l && Noise.clampOK r
  | .Div l r => Noise.clampOK l && Noise.clampOK r
  | .Pow l r => Noise.clampOK l && Noise.clampOK r
  | .Rem l r => Noise.clampOK l && Noise.clampOK r
  | .RemEuclid l r => Noise.clampOK l && Noise.clampOK r
  | .SignedPow l r => Noise.clampOK l && Noise.clampOK r
  | .Floor v => Noise.clampOK v
  | .Ceil v => Noise.clampOK v
  | .Abs v => Noise.clampOK v
  | .Min l r => Noise.clampOK l && Noise.clampOK r
  | .Max l r => Noise.clampOK l && Noise.clampOK r
  | .Clamp f mn mx => decide (mn ≤ mx) && Noise.clampOK f
  | .ToUnsignedUnit v => Noise.clampOK v
  | .ToSignedUnit v => Noise.clampOK v
  | .CoordTranslate f _ => Noise.clampOK f
  | .CoordScale f _ => Noise.clampOK f

/-- Amplitude sequence as the spec words it: `amplitude_0 = 1`,
`amplitude_{i+1} = amplitude_i * ampScale`. -/
def amplitude (ampScale : ℚ) : ℕ → ℚ
  | 0 => 1
  | i + 1 => amplitude ampScale i * ampScale

/-- Frequency sequence as the spec words it: `frequency_0 = 1`,
`frequency_{i+1} = frequency_i * freqScale`. -/
def frequency (freqScale : ℚ) : ℕ → ℚ
  | 0 => 1
  | i + 1 => frequency freqScale i * freqScale

/-- Spec-side multi-octave sum, following the spec's words (a refinement
counterpart, not a source translation): the sum over `i` of
`amplitude_i * evaluate(child, p * frequency_i)`, accumulated in
increasing `i` order. `octSumSpec ev a f p n i res` adds the `n` terms
with indices `i, i+1, ...` onto `res`; the claims instantiate `i = 0`,
`res = 0`. A child panic propagates from the first failing term. -/
def octSumSpec (ev : ℚ × ℚ → Option ℚ) (ampScale freqScale : ℚ) (p : ℚ × ℚ) :
    ℕ → ℕ → ℚ → Option ℚ
  | 0, _, res => some res
  | n + 1, i, res =>
    (ev (p.1 * frequency freqScale i, p.2 * frequency freqScale i)).bind fun v =>
      octSumSpec ev ampScale freqScale p n (i + 1) (res + amplitude ampScale i * v)

/-- Normalized coordinate of grid index `k` at diameter `d`
(`src/main.rs` lines 891-892): `k as f64 / (diameter - 1) as f64`, where
`d - 1` is `usize` subtraction (exact for `d ≥ 1`). In the `ℚ` model a
zero divisor gives `0`, where IEEE gives NaN; the `divF64` model below
captures the IEEE behaviour of that corner. -/
def coordQ (d k : ℕ) : ℚ := (k : ℚ) / ((d - 1 : ℕ) : ℚ)

/-- Produce `[f 0, ..., f (n-1)]` if every element is `some`, `none` (a
panicking unit of work, which aborts the whole scoped fan-out) otherwise. -/
def collectRange (f : ℕ → Option α) : ℕ → Option (List α)
  | 0 => some []
  | n + 1 => (collectRange f n).bind fun l => (f n).map fun v => l ++ [v]

/-- One row `y` of the sampling loop of `generate_noise` (`src/main.rs`
lines 890-895): cell `x` holds `ast.eval(dvec2(x/(d-1), y/(d-1)))`. -/
def sampleRow (P : Prims) (t : Noise) (d y : ℕ) : Option (List ℚ) :=
  collectRange (fun x => Noise.eval P t (coordQ d x, coordQ d y)) d

/-- The sampled buffer (`src/main.rs` lines 885-898): rows `0 .. d-1` of
length `d` written into the row-major `d*d` vector
(`chunks_exact_mut(diameter)`), concatenated. -/
def sample (P : Prims) (t : Noise) (d : ℕ) : Option (List ℚ) :=
  (collectRange (fun y => sampleRow P t d y) d).map List.flatten

/-- `NoiseOutput::new(diameter)` (`src/main.rs` lines 736-743): the buffer
starts as `vec![0.0; diameter.pow(2)]`. -/
def noiseOutputNew (d : ℕ) : List ℚ := List.replicate (d ^ 2) 0

/-- The three script-failure kinds of the error taxonomy (mlua syntax
error, runtime error, or the "script did not return a Noise" extraction
failure). -/
inductive ScriptError where
  | syntaxError
  | runtimeError
  | resultTypeError

/-- Body of the async task spawned by `generate_noise` (`src/main.rs`
lines 873-899). The Lua interpreter is external, so the outcome of
`lua::construct_noisegen` is passed in as an `Except`. On error the task
logs and returns the untouched `NoiseOutput::new(32)` buffer (the
`downcast().unwrap()` cannot fail: `construct_noisegen` only produces
`mlua` errors); on success it samples the tree at diameter 32. -/
def generateTask (P : Prims) (build : Except ScriptError Noise) : Option (List ℚ) :=
  match build with
  | .error _ => some (noiseOutputNew 32)
  | .ok ast => sample P ast 32

/-- `NoiseGenRequest` (`src/main.rs` lines 584-588). -/
inductive NoiseGenRequest where
  | AlgorithmChanged
  | ModelParamsChanged
deriving DecidableEq

/-- The request-reading loop shared by `generate_noise` (`src/main.rs`
lines 847-855, with `target = AlgorithmChanged`) and by
`update_noise_outputs` when no task is in flight (lines 915-923, with
`target = ModelParamsChanged`): for each event, first panic (`none`) if
`requested` is already set, then set `requested` if the event matches
`target`. Returns the final `requested` flag when no panic occurs. -/
def coalesceLoop (target : NoiseGenRequest) : List NoiseGenRequest → Bool → Option Bool
  | [], requested => some requested
  | ev :: rest, requested =>
    if requested then none
    else coalesceLoop target rest (if ev = target then true else requested)

/-- Exponent search for the binary32 rounding model: starting from
`(e, p) = (128, 2^128)`, halve `p` until `p ≤ m`, returning `(e, 2^e)`
with `2^e ≤ m < 2^(e+1)` (for `m` within the fuel's range). Written with
explicit fuel so it is structurally recursive. -/
def fexp : ℕ → ℤ → ℚ → ℚ → ℤ × ℚ
  | 0, e, p, _ => (e, p)
  | fuel + 1, e, p, m => if p ≤ m then (e, p) else fexp fuel (e - 1) (p / 2) m

/-- Modelled from IEEE-754 binary32 (the `f32` arithmetic of
`Noise::eval`): round an exact rational to the nearest representable
binary32 value, ties to even. Scoped to the finite range (overflow to
infinity is not modelled; every input below stays well inside the normal
range); subnormal granularity `2^-149` below `2^-126`. -/
def roundF32 (q : ℚ) : ℚ :=
  if q = 0 then 0
  else
    let m := |q|
    let ep := fexp 300 128 ((2 : ℚ) ^ (128 : ℤ)) m
    let ulp : ℚ := if ep.1 < -126 then (2 : ℚ) ^ (-149 : ℤ) else ep.2 / 2 ^ 23
    let scaled := m / ulp
    let n : ℤ := ⌊scaled⌋
    let fr : ℚ := scaled - (n : ℚ)
    let n2 : ℤ :=
      if fr < 1 / 2 then n else if 1 / 2 < fr then n + 1 else if n % 2 = 0 then n else n + 1
    (if q < 0 then -1 else 1) * (n2 : ℚ) * ulp

/-- The `ToSignedUnit` arm (`src/lua.rs` line 121) in binary32 arithmetic,
each operation rounding its exact result: `v * 2.0 - 1.0`. -/
def toSignedUnitF32 (v : ℚ) : ℚ := roundF32 (roundF32 (v * 2) - 1)

/-- The `ToUnsignedUnit` arm (`src/lua.rs` line 120) in binary32
arithmetic, each operation rounding its exact result: `(v + 1.0) / 2.0`. -/
def toUnsignedUnitF32 (v : ℚ) : ℚ := roundF32 (roundF32 (v + 1) / 2)

/-- An IEEE double as used for the grid coordinates: finite (with its
exact value), an infinity, or NaN. -/
inductive F64 where
  | fin (q : ℚ)
  | inf (neg : Bool)
  | nan
deriving DecidableEq

/-- IEEE-754 division of two finite doubles, exact-quotient model (no
rounding is modelled; the uses below divide small naturals, where the
quotient is exact): `0/0 = NaN`, `x/0 = ±∞` for `x ≠ 0`. -/
def divF64 (x y : ℚ) : F64 :=
  if y = 0 then (if x = 0 then .nan else .inf (x < 0)) else .fin (x / y)

/-- The coordinate-normalization divisor of `generate_noise`
(`src/main.rs` lines 891-892): `diameter - 1` in `usize` arithmetic, with
no special case of any kind. -/
def normDivisor (d : ℕ) : ℕ := d - 1

/-- Modelled from the spec: the divisor the spec prescribes — "when
`diameter = 1`, treat the divisor as `1` to avoid division by zero". -/
def normDivisorSpec (d : ℕ) : ℕ := if d = 1 then 1 else d - 1

/-- A concrete callback tree that distinguishes coordinates: the function
leaf returning the x coordinate. -/
def projX : Noise := .Func fun p => p.1

/-! ## Helper lemmas -/

theorem lift2_isSome (op : ℚ → ℚ → ℚ) (a b : Option ℚ) (ha : a.isSome = true)
    (hb : b.isSome = true) : (lift2 op a b).isSome = true := by
  obtain ⟨x, hx⟩ := Option.isSome_iff_exists.mp ha
  obtain ⟨y, hy⟩ := Option.isSome_iff_exists.mp hb
  simp [lift2, hx, hy]

theorem octRun_isSome (ev : ℚ × ℚ → Option ℚ) (aS fS : ℚ) (p : ℚ × ℚ)
    (hev : ∀ q, (ev q).isSome = true) :
    ∀ (n : ℕ) (res amp freq : ℚ), (octRun ev aS fS p n res amp freq).isSome = true := by
  intro n
  induction n with
  | zero => intro res amp freq; rfl
  | succ n ih =>
    intro res amp freq
    obtain ⟨v, hv⟩ := Option.isSome_iff_exists.mp (hev (p.1 * freq, p.2 * freq))
    simp only [octRun, hv, Option.some_bind]
    exact ih _ _ _

theorem octRun_eq_octSumSpec (ev : ℚ × ℚ → Option ℚ) (aS fS : ℚ) (p : ℚ × ℚ) :
    ∀ (n i : ℕ) (res : ℚ),
      octRun ev aS fS p n res (amplitude aS i) (frequency fS i) =
        octSumSpec ev aS fS p n i res := by
  intro n
  induction n with
  | zero => intro i res; rfl
  | succ n ih =>
    intro i res
    simp only [octRun, octSumSpec]
    have ha : amplitude aS i * aS = amplitude aS (i + 1) := rfl
    have hf : frequency fS i * fS = frequency fS (i + 1) := rfl
    rw [ha, hf]
    exact congrArg _ (funext fun v => ih (i + 1) _)

theorem amplitude_eq_pow (aS : ℚ) : ∀ i : ℕ, amplitude aS i = aS ^ i := by
  intro i
  induction i with
  | zero => rfl
  | succ i ih => rw [amplitude, ih, pow_succ]

theorem octRun_const (c aS fS : ℚ) (p : ℚ × ℚ) :
    ∀ (n : ℕ) (res amp freq : ℚ),
      octRun (fun _ => some c) aS fS p n res amp freq =
        some (res + amp * c * ∑ i ∈ Finset.range n, aS ^ i) := by
  intro n
  induction n with
  | zero => intro res amp freq; simp [octRun]
  | succ n ih =>
    intro res amp freq
    simp only [octRun, Option.some_bind]
    rw [ih, geom_sum_succ]
    congr 1
    ring

/-! ## C1: the Octaves arm computes the spec's accumulated sum -/

/-- C1: for every node `Octaves (child, n, ampScale, freqScale)` and
coordinate `p`, evaluation returns the sum over `i = 0 .. n-1` of
`amplitude_i * evaluate(child, p * frequency_i)` with `amplitude_0 = 1`,
`amplitude_{i+1} = amplitude_i * ampScale`, `frequency_0 = 1`,
`frequency_{i+1} = frequency_i * freqScale`, the terms accumulated in
increasing `i` order; with `n = 0` the result is `0`. -/
theorem octaves_eval_eq_spec_sum (P : Prims) (child : Noise) (n : ℕ)
    (ampScale freqScale : ℚ) (p : ℚ × ℚ) :
    Noise.eval P (.Octaves child n ampScale freqScale) p =
      octSumSpec (fun q => Noise.eval P child q) ampScale freqScale p n 0 0 ∧
    Noise.eval P (.Octaves child 0 ampScale freqScale) p = some 0 := by
  constructor
  · simp only [Noise.eval]
    exact octRun_eq_octSumSpec (fun q => Noise.eval P child q) ampScale freqScale p n 0 0
  · simp only [Noise.eval]
    rfl

/-! ## C8: Octaves over a constant child -/

/-- C8: evaluating `octaves(const c, n, a, f)` at any coordinate `p` gives
`c * Σ_{i=0}^{n-1} a^i`, independently of `p` and of the frequency scale
`f` (exact arithmetic). -/
theorem octaves_const_eval (P : Prims) (c : ℚ) (n : ℕ) (a f : ℚ) (p : ℚ × ℚ) :
    Noise.eval P (.Octaves (.Const c) n a f) p =
      some (c * ∑ i ∈ Finset.range n, a ^ i) := by
  simp only [Noise.eval]
  rw [octRun_const]
  congr 1
  ring

/-! ## C6: coordinate reparameterization -/

/-- C6: `translate` evaluates the child at `p + (dx, dy)` and `scale`
evaluates the child at `p * (sx, sy)`; the node performs no other
computation on the child's result. -/
theorem coord_translate_scale_eval (P : Prims) (X : Noise) (dx dy sx sy : ℚ) (p : ℚ × ℚ) :
    Noise.eval P (.CoordTranslate X (dx, dy)) p = Noise.eval P X (p.1 + dx, p.2 + dy) ∧
    Noise.eval P (.CoordScale X (sx, sy)) p = Noise.eval P X (p.1 * sx, p.2 * sy) := by
  constructor <;> simp [Noise.eval]

/-! ## C7: unit-mapping round trip (exact arithmetic part) -/

/-- C7 (amended): in exact arithmetic the round trip of the two unit
mappings is the identity: `evaluate(toUnsignedUnit(toSignedUnit(X)), p) =
evaluate(X, p)`. (The bit-level binary32 claim fails; see the
counterexample below.) -/
theorem unit_roundtrip_eval (P : Prims) (X : Noise) (p : ℚ × ℚ) :
    Noise.eval P (.ToUnsignedUnit (.ToSignedUnit X)) p = Noise.eval P X p := by
  simp only [Noise.eval]
  cases h : Noise.eval P X p with
  | none => rfl
  | some v =>
    simp only [Option.map_some']
    congr 1
    ring

/-! ## C5: clone preserves evaluation -/

/-- C5: for every tree `T` and coordinate `p`,
`evaluate(clone(T), p) = evaluate(T, p)`, where `clone` copies every
variant and duplicates the callback leaf's function object through `cf`;
the precondition is that the callback duplication is extensionally
faithful (`cf g` agrees with `g` everywhere). -/
theorem clone_preserves_eval (P : Prims) (cf : (ℚ × ℚ → ℚ) → ℚ × ℚ → ℚ)
    (hcf : ∀ g q, cf g q = g q) (t : Noise) (p : ℚ × ℚ) :
    Noise.eval P (Noise.clone cf t) p = Noise.eval P t p := by
  induction t generalizing p <;>
    simp_all [Noise.clone, Noise.eval, hcf]

/-- Witness for C5 at a concrete input: the identity duplication (which is
extensionally faithful) on the tree `const 1`. -/
theorem clone_preserves_eval_witness :
    Noise.eval trivPrims (Noise.clone (fun g => g) (.Const 1)) (0, 0) =
      Noise.eval trivPrims (.Const 1) (0, 0) :=
  clone_preserves_eval trivPrims (fun g => g) (fun _ _ => rfl) (.Const 1) (0, 0)

/-! ## C3: totality of evaluation -/

/-- C3 (amended): evaluation is total and panic-free for every tree whose
`Clamp` nodes all satisfy `min ≤ max`; the division, power, remainder and
octave arms never panic. (For a `Clamp` node with `min > max` the Rust
`f32::clamp` assertion fires and evaluation panics; see the
counterexample below.) -/
theorem eval_total_of_clampOK (P : Prims) (t : Noise) (p : ℚ × ℚ) :
    Noise.clampOK t = true → (Noise.eval P t p).isSome = true := by
  induction t generalizing p with
  | Const v => intro _; rfl
  | Func f => intro _; rfl
  | Simplex s => intro _; rfl
  | SimplexFast s => intro _; rfl
  | Octaves f n aS fS ih =>
    intro h
    simp only [Noise.clampOK] at h
    simp only [Noise.eval]
    exact octRun_isSome _ aS fS p (fun q => ih q h) n 0 1 1
  | Add l r ihl ihr =>
    intro h
    simp only [Noise.clampOK, Bool.and_eq_true] at h
    simp only [Noise.eval]
    exact lift2_isSome _ _ _ (ihl p h.1) (ihr p h.2)
  | Sub l r ihl ihr =>
    intro h
    simp only [Noise.clampOK, Bool.and_eq_true] at h
    simp only [Noise.eval]
    exact lift2_isSome _ _ _ (ihl p h.1) (ihr p h.2)
  | Mul l r ihl ihr =>
    intro h
    simp only [Noise.clampOK, Bool.and_eq_true] at h
    simp only [Noise.eval]
    exact lift2_isSome _ _ _ (ihl p h.1) (ihr p h.2)
  | Div l r ihl ihr =>
    intro h
    simp only [Noise.clampOK, Bool.and_eq_true] at h
    simp only [Noise.eval]
    exact lift2_isSome _ _ _ (ihl p h.1) (ihr p h.2)
  | Pow l r ihl ihr =>
    intro h
    simp only [Noise.clampOK, Bool.and_eq_true] at h
    simp only [Noise.eval]
    exact lift2_isSome _ _ _ (ihl p h.1) (ihr p h.2)
  | Rem l r ihl ihr =>
    intro h
    simp only [Noise.clampOK, Bool.and_eq_true] at h
    simp only [Noise.eval]
    exact lift2_isSome _ _ _ (ihl p h.1) (ihr p h.2)
  | RemEuclid l r ihl ihr =>
    intro h
    simp only [Noise.clampOK, Bool.and_eq_true] at h
    simp only [Noise.eval]
    exact lift2_isSome _ _ _ (ihl p h.1) (ihr p h.2)
  | SignedPow l r ihl ihr =>
    intro h
    simp only [Noise.clampOK, Bool.and_eq_true] at h
    simp only [Noise.eval]
    exact lift2_isSome _ _ _ (ihl p h.1) (ihr p h.2)
  | Floor v ih =>
    intro h
    simp only [Noise.clampOK] at h
    simp only [Noise.eval, Option.isSome_map']
    exact ih p h
  | Ceil v ih =>
    intro h
    simp only [Noise.clampOK] at h
    simp only [Noise.eval, Option.isSome_map']
    exact ih p h
  | Abs v ih =>
    intro h
    simp only [Noise.clampOK] at h
    simp only [Noise.eval, Option.isSome_map']
    exact ih p h
  | Min l r ihl ihr =>
    intro h
    simp only [Noise.clampOK, Bool.and_eq_true] at h
    simp only [Noise.eval]
    exact lift2_isSome _ _ _ (ihl p h.1) (ihr p h.2)
  | Max l r ihl ihr =>
    intro h
    simp only [Noise.clampOK, Bool.and_eq_true] at h
    simp only [Noise.eval]
    exact lift2_isSome _ _ _ (ihl p h.1) (ihr p h.2)
  | Clamp f mn mx ih =>
    intro h
    simp only [Noise.clampOK, Bool.and_eq_true, decide_eq_true_eq] at h
    simp only [Noise.eval, if_pos h.1, Option.isSome_map']
    exact ih p h.2
  | ToUnsignedUnit v ih =>
    intro h
    simp only [Noise.clampOK] at h
    simp only [Noise.eval, Option.isSome_map']
    exact ih p h
  | ToSignedUnit v ih =>
    intro h
    simp only [Noise.clampOK] at h
    simp only [Noise.eval, Option.isSome_map']
    exact ih p h
  | CoordTranslate f t ih =>
    intro h
    simp only [Noise.clampOK] at h
    simp only [Noise.eval]
    exact ih _ h
  | CoordScale f s ih =>
    intro h
    simp only [Noise.clampOK] at h
    simp only [Noise.eval]
    exact ih _ h

/-- Witness for C3 (amended) at a concrete input: a tree containing a
well-ordered clamp evaluates to a value. -/
theorem eval_total_of_clampOK_witness :
    Noise.clampOK (.Clamp (.Const 0) 0 1) = true ∧
      (Noise.eval trivPrims (.Clamp (.Const 0) 0 1) (0, 0)).isSome = true :=
  ⟨by norm_num [Noise.clampOK],
    eval_total_of_clampOK trivPrims (.Clamp (.Const 0) 0 1) (0, 0)
      (by norm_num [Noise.clampOK])⟩

/-- C3 counterexample: a `Clamp` node with `min = 2 > 1 = max` is
constructible through the binding layer (`clamp` accepts any pair of
floats), and evaluating it panics — the Rust `f32::clamp` asserts
`min <= max` — rather than returning a scalar. -/
theorem eval_clamp_panics_cex :
    Noise.eval trivPrims (.Clamp (.Const 0) 2 1) (0, 0) = none := by
  norm_num [Noise.eval]

/-! ## C10: panic condition of the request-coalescing loops -/

theorem coalesceLoop_true_none (target : NoiseGenRequest) (evs : List NoiseGenRequest) :
    coalesceLoop target evs true = none ↔ evs ≠ [] := by
  cases evs with
  | nil => simp [coalesceLoop]
  | cons ev rest => simp [coalesceLoop]

theorem coalesceLoop_none_iff (target : NoiseGenRequest) (evs : List NoiseGenRequest) :
    coalesceLoop target evs false = none ↔
      ∃ i, evs[i]? = some target ∧ i + 1 < evs.length := by
  induction evs with
  | nil => simp [coalesceLoop]
  | cons ev rest ih =>
    have hstep : coalesceLoop target (ev :: rest) false =
        coalesceLoop target rest (if ev = target then true else false) := rfl
    by_cases hev : ev = target
    · subst hev
      rw [hstep, if_pos rfl, coalesceLoop_true_none]
      constructor
      · intro hne
        refine ⟨0, by simp, ?_⟩
        have := List.length_pos.mpr hne
        simp only [List.length_cons]
        omega
      · rintro ⟨i, _, hlen⟩
        intro hnil
        subst hnil
        simp only [List.length_cons, List.length_nil] at hlen
        omega
    · rw [hstep, if_neg hev, ih]
      constructor
      · rintro ⟨i, hi, hlen⟩
        refine ⟨i + 1, by simpa using hi, ?_⟩
        simp only [List.length_cons]
        omega
      · rintro ⟨i, hi, hlen⟩
        cases i with
        | zero =>
          simp only [List.getElem?_cons_zero, Option.some.injEq] at hi
          exact absurd hi hev
        | succ i =>
          refine ⟨i, by simpa using hi, ?_⟩
          simp only [List.length_cons] at hlen
          omega

/-- C10: the `generate_noise` request loop panics exactly when some event
of either kind arrives after an `AlgorithmChanged` event in the same
tick's sequence (an `AlgorithmChanged` occurs at a non-final position);
symmetrically, the `update_noise_outputs` loop (no task in flight) panics
exactly when some event follows a `ModelParamsChanged`. -/
theorem coalesce_panic_iff (evs : List NoiseGenRequest) :
    (coalesceLoop .AlgorithmChanged evs false = none ↔
      ∃ i, evs[i]? = some .AlgorithmChanged ∧ i + 1 < evs.length) ∧
    (coalesceLoop .ModelParamsChanged evs false = none ↔
      ∃ i, evs[i]? = some .ModelParamsChanged ∧ i + 1 < evs.length) :=
  ⟨coalesceLoop_none_iff .AlgorithmChanged evs, coalesceLoop_none_iff .ModelParamsChanged evs⟩

/-! ## C4: script failure degrades to the zero-filled default buffer -/

/-- C4: when script execution fails with any error kind, the generation
task still completes and returns the buffer of the requested size
(`32 * 32` cells) entirely filled with the default value `0.0`; the error
surfaces only as a logged diagnostic and is never propagated as a panic
or host-facing failure. -/
theorem generate_error_zero_buffer (P : Prims) (e : ScriptError) :
    generateTask P (.error e) = some (List.replicate (32 * 32) 0) := by
  norm_num [generateTask, noiseOutputNew]

/-! ## Sampling lemmas -/

theorem collectRange_length {α : Type} (f : ℕ → Option α) :
    ∀ (n : ℕ) (l : List α), collectRange f n = some l → l.length = n := by
  intro n
  induction n with
  | zero =>
    intro l h
    simp only [collectRange, Option.some.injEq] at h
    subst h
    rfl
  | succ n ih =>
    intro l h
    simp only [collectRange] at h
    cases hc : collectRange f n with
    | none => simp [hc] at h
    | some l0 =>
      cases hf : f n with
      | none => simp [hc, hf] at h
      | some v =>
        simp only [hc, hf, Option.some_bind, Option.map_some', Option.some.injEq] at h
        subst h
        simp [ih l0 hc]

theorem collectRange_get {α : Type} (f : ℕ → Option α) :
    ∀ (n : ℕ) (l : List α), collectRange f n = some l →
      ∀ i, i < n → l[i]? = f i := by
  intro n
  induction n with
  | zero => intro l _ i hi; exact absurd hi (Nat.not_lt_zero i)
  | succ n ih =>
    intro l h i hi
    simp only [collectRange] at h
    cases hc : collectRange f n with
    | none => simp [hc] at h
    | some l0 =>
      cases hf : f n with
      | none => simp [hc, hf] at h
      | some v =>
        simp only [hc, hf, Option.some_bind, Option.map_some', Option.some.injEq] at h
        subst h
        have hlen : l0.length = n := collectRange_length f n l0 hc
        rcases Nat.lt_or_ge i n with hlt | hge
        · rw [List.getElem?_append_left (by omega)]
          exact ih l0 hc i hlt
        · have hin : i = n := by omega
          subst hin
          rw [List.getElem?_append_right (by omega), hlen]
          simp [hf.symm]

theorem flatten_get (d : ℕ) :
    ∀ (L : List (List ℚ)), (∀ r ∈ L, r.length = d) → ∀ (y x : ℕ),
      y < L.length → x < d →
      L.flatten[y * d + x]? = L[y]?.bind fun r => r[x]? := by
  intro L
  induction L with
  | nil => intro _ y x hy _; exact absurd hy (Nat.not_lt_zero y)
  | cons r rs ih =>
    intro hL y x hy hx
    have hr : r.length = d := hL r (List.mem_cons_self r rs)
    cases y with
    | zero =>
      simp only [List.flatten_cons, Nat.zero_mul, Nat.zero_add]
      rw [List.getElem?_append_left (by omega)]
      simp
    | succ y =>
      simp only [List.flatten_cons]
      rw [List.getElem?_append_right (by rw [hr, Nat.succ_mul]; omega)]
      have hidx : (y + 1) * d + x - r.length = y * d + x := by
        rw [hr, Nat.succ_mul]
        omega
      rw [hidx, ih (fun t ht => hL t (List.mem_cons_of_mem r ht)) y x (by simpa using hy) hx]
      simp

/-! ## C2: the sampled buffer -/

/-- C2 (amended): for every tree `T` and every diameter `d ≥ 2`, whenever
sampling completes (no evaluation panic) it produces a row-major buffer of
exactly `d*d` scalars in which cell `(x, y)` holds
`evaluate(T, (x/(d-1), y/(d-1)))`; consequently cell `(0,0)` holds
`evaluate(T, (0,0))` and cell `(d-1, d-1)` holds `evaluate(T, (1,1))`.
(At `d = 1` the second corner identity fails; see the counterexample.) -/
theorem sample_cells (P : Prims) (t : Noise) (d : ℕ) (hd : 2 ≤ d) (buf : List ℚ)
    (hbuf : sample P t d = some buf) :
    buf.length = d * d ∧
    (∀ x y, x < d → y < d →
      buf[y * d + x]? = Noise.eval P t (coordQ d x, coordQ d y)) ∧
    buf[0]? = Noise.eval P t (0, 0) ∧
    buf[(d - 1) * d + (d - 1)]? = Noise.eval P t (1, 1) := by
  obtain ⟨L, hL, rfl⟩ :
      ∃ L, collectRange (fun y => sampleRow P t d y) d = some L ∧ buf = L.flatten := by
    cases hc : collectRange (fun y => sampleRow P t d y) d with
    | none => rw [sample, hc] at hbuf; simp at hbuf
    | some L =>
      rw [sample, hc] at hbuf
      simp only [Option.map_some', Option.some.injEq] at hbuf
      exact ⟨L, rfl, hbuf.symm⟩
  have hLlen : L.length = d := collectRange_length _ d L hL
  have hrow : ∀ y, y < d → L[y]? = sampleRow P t d y := collectRange_get _ d L hL
  have hall : ∀ r ∈ L, r.length = d := by
    intro r hrm
    obtain ⟨i, hi, hLi⟩ := List.getElem_of_mem hrm
    have hsome : L[i]? = some r := by rw [List.getElem?_eq_getElem hi, hLi]
    rw [hrow i (by omega)] at hsome
    simp only [sampleRow] at hsome
    exact collectRange_length _ d r hsome
  have hcell : ∀ x y, x < d → y < d →
      L.flatten[y * d + x]? = Noise.eval P t (coordQ d x, coordQ d y) := by
    intro x y hx hy
    rw [flatten_get d L hall y x (by omega) hx]
    have hy2 : y < L.length := by omega
    rw [List.getElem?_eq_getElem hy2, Option.some_bind]
    have hrowy : sampleRow P t d y = some (L[y]) := by
      rw [← hrow y hy]
      exact (List.getElem?_eq_getElem hy2).symm ▸ rfl
    simp only [sampleRow] at hrowy
    exact collectRange_get _ d _ hrowy x hx
  have hc0 : coordQ d 0 = 0 := by simp [coordQ]
  have hc1 : coordQ d (d - 1) = 1 := by
    have hne : ((d - 1 : ℕ) : ℚ) ≠ 0 := Nat.cast_ne_zero.mpr (by omega)
    simp [coordQ, div_self hne]
  refine ⟨?_, hcell, ?_, ?_⟩
  · have h1 : L.map List.length = List.replicate d d :=
      List.eq_replicate_iff.mpr ⟨by simp [hLlen], by
        intro b hb
        obtain ⟨r, hrm, hrl⟩ := List.mem_map.mp hb
        rw [← hrl]
        exact hall r hrm⟩
    rw [List.length_flatten, h1, List.sum_const_nat]
  · have h := hcell 0 0 (by omega) (by omega)
    rw [hc0] at h
    simpa using h
  · have h := hcell (d - 1) (d - 1) (by omega) (by omega)
    rw [hc1] at h
    exact h

/-- Witness for C2 (amended) at a concrete input: `T = const 0`, `d = 2`. -/
theorem sample_cells_witness :
    sample trivPrims (.Const 0) 2 = some [0, 0, 0, 0] ∧
      ([0, 0, 0, 0] : List ℚ).length = 2 * 2 := by
  have hs : sample trivPrims (.Const 0) 2 = some [0, 0, 0, 0] := by
    norm_num [sample, sampleRow, collectRange, Noise.eval]
  exact ⟨hs, (sample_cells trivPrims (.Const 0) 2 (by norm_num) [0, 0, 0, 0] hs).1⟩

/-- C2 counterexample: at `diameter = 1` the claim fails. The buffer's
single cell `(0, 0)` — which is also cell `(d-1, d-1)` — holds the
evaluation at the coordinate `0/0` (`0` in the exact model, NaN in the
real `f64` arithmetic), and for the callback tree `projX` this is `0`,
not `evaluate(T, (1, 1)) = 1`. -/
theorem sample_diameter_one_cex :
    sample trivPrims projX 1 = some [0] ∧
      Noise.eval trivPrims projX (1, 1) = some 1 ∧ ¬ ((0 : ℚ) = 1) := by
  refine ⟨?_, ?_, by norm_num⟩
  · norm_num [sample, sampleRow, collectRange, Noise.eval, coordQ, projX]
  · norm_num [Noise.eval, projX]

/-! ## C9: the diameter-1 coordinate normalization -/

/-- C9 counterexample: the sampling loop has no special case for
`diameter = 1`: the coordinate-normalization divisor is
`diameter - 1 = 0`, not `1` as the claim states, so a division by zero
does occur and the single cell's coordinate components are computed as
`0 / 0`, which is NaN in IEEE arithmetic — not the finite `(0, 0)`. -/
theorem diameter_one_divisor_cex :
    normDivisor 1 = 0 ∧ normDivisor 1 ≠ normDivisorSpec 1 ∧
      divF64 0 (normDivisor 1 : ℚ) = F64.nan ∧ F64.nan ≠ F64.fin 0 := by
  refine ⟨rfl, by norm_num [normDivisor, normDivisorSpec], ?_, fun h => F64.noConfusion h⟩
  norm_num [divF64, normDivisor]

/-- C9 (amended): the code divides by `diameter - 1` unconditionally. For
`d ≥ 2` the divisor is nonzero and every cell coordinate is the finite
value `x / (d-1)`; for `d = 1` the divisor is `0` and the single cell's
coordinate components are `0 / 0` = NaN. -/
theorem norm_coord_div (d : ℕ) (hd : 2 ≤ d) (x : ℕ) :
    divF64 (x : ℚ) (normDivisor d : ℚ) = F64.fin (coordQ d x) ∧
      divF64 0 (normDivisor 1 : ℚ) = F64.nan := by
  constructor
  · have hne : ((normDivisor d : ℕ) : ℚ) ≠ 0 := by
      simp only [normDivisor]
      exact Nat.cast_ne_zero.mpr (by omega)
    unfold divF64
    rw [if_neg hne]
    rfl
  · norm_num [divF64, normDivisor]

/-- Witness for C9 (amended) at a concrete input: `d = 2`, `x = 1`. -/
theorem norm_coord_div_witness :
    divF64 (1 : ℚ) (normDivisor 2 : ℚ) = F64.fin (coordQ 2 1) ∧
      divF64 0 (normDivisor 1 : ℚ) = F64.nan := by
  have h := norm_coord_div 2 (by norm_num) 1
  simpa using h

/-! ## Binary32 evaluation lemmas for the round-trip counterexample -/

theorem fexp_eval (m : ℚ) (e : ℤ) :
    ∀ (fuel : ℕ) (e0 : ℤ), e ≤ e0 → e0 - e ≤ (fuel : ℤ) →
      (2 : ℚ) ^ e ≤ m → m < (2 : ℚ) ^ (e + 1) →
      fexp fuel e0 ((2 : ℚ) ^ e0) m = (e, (2 : ℚ) ^ e) := by
  intro fuel
  induction fuel with
  | zero =>
    intro e0 h0 hf _ _
    have he : e = e0 := by
      simp only [Nat.cast_zero] at hf
      omega
    subst he
    rfl
  | succ fuel ih =>
    intro e0 h0 hf h1 h2
    by_cases hle : (2 : ℚ) ^ e0 ≤ m
    · have he0 : e0 < e + 1 :=
        (zpow_lt_zpow_iff_right₀ (by norm_num : (1 : ℚ) < 2)).mp (lt_of_le_of_lt hle h2)
      have he : e = e0 := by omega
      subst he
      simp [fexp, hle]
    · have hlt : e < e0 :=
        (zpow_lt_zpow_iff_right₀ (by norm_num : (1 : ℚ) < 2)).mp
          (lt_of_le_of_lt h1 (lt_of_not_le hle))
      have hhalf : (2 : ℚ) ^ e0 / 2 = (2 : ℚ) ^ (e0 - 1) := by
        rw [zpow_sub₀ (by norm_num : (2 : ℚ) ≠ 0)]
        norm_num
      simp only [fexp, if_neg hle, hhalf]
      exact ih (e0 - 1) (by omega) (by push_cast at hf; omega) h1 h2

theorem roundF32_zero : roundF32 0 = 0 := by
  simp [roundF32]

theorem roundF32_small : roundF32 ((1 : ℚ) / 2 ^ 33) = (1 : ℚ) / 2 ^ 33 := by
  have habs : |(1 : ℚ) / 2 ^ 33| = 1 / 2 ^ 33 := by
    rw [abs_of_pos]
    norm_num
  have hfe : fexp 300 128 ((2 : ℚ) ^ (128 : ℤ)) ((1 : ℚ) / 2 ^ 33) =
      (-33, (2 : ℚ) ^ (-33 : ℤ)) :=
    fexp_eval ((1 : ℚ) / 2 ^ 33) (-33) 300 128 (by norm_num) (by norm_num)
      (by norm_num) (by norm_num)
  simp only [roundF32, habs, hfe]
  all_goals norm_num [Int.fract]

theorem roundF32_near_neg_one : roundF32 ((1 : ℚ) / 2 ^ 33 - 1) = -1 := by
  have habs : |(1 : ℚ) / 2 ^ 33 - 1| = (2 ^ 33 - 1) / 2 ^ 33 := by
    rw [abs_of_neg (by norm_num)]
    norm_num
  have hfe : fexp 300 128 ((2 : ℚ) ^ (128 : ℤ)) ((2 ^ 33 - 1 : ℚ) / 2 ^ 33) =
      (-1, (2 : ℚ) ^ (-1 : ℤ)) :=
    fexp_eval ((2 ^ 33 - 1 : ℚ) / 2 ^ 33) (-1) 300 128 (by norm_num) (by norm_num)
      (by norm_num) (by norm_num)
  simp only [roundF32, habs, hfe]
  all_goals norm_num [Int.fract]

/-- C7 counterexample: in the implementation's binary32 floating-point
arithmetic the round trip is not the identity. For the value `v = 2^-34`
(representable exactly in `f32` and constructible as `const(2^-34)`):
`toSignedUnit` computes `v * 2 = 2^-33` exactly, but `2^-33 - 1` rounds to
`-1` (the exact result is within half an ulp of `-1`); `toUnsignedUnit`
then maps `-1` to `0`, and `0 ≠ 2^-34`. -/
theorem unit_roundtrip_f32_cex :
    toUnsignedUnitF32 (toSignedUnitF32 ((1 : ℚ) / 2 ^ 34)) = 0 ∧
      ¬ ((1 : ℚ) / 2 ^ 34 = 0) := by
  have hmul : ((1 : ℚ) / 2 ^ 34) * 2 = 1 / 2 ^ 33 := by norm_num
  have h1 : toSignedUnitF32 ((1 : ℚ) / 2 ^ 34) = -1 := by
    unfold toSignedUnitF32
    rw [hmul, roundF32_small, roundF32_near_neg_one]
  have h2 : toUnsignedUnitF32 (-1 : ℚ) = 0 := by
    unfold toUnsignedUnitF32
    norm_num [roundF32_zero]
  rw [h1, h2]
  norm_num
